import Mathlib

/-!
Verification of the MADDA backend against its specification.

The repository ships thin service shells (FastAPI apps in
`Backend/cloud_anchor_service/main.py`, `Backend/api_gateway/app.py`,
`Backend/api_gateway/telemetry/__init__.py`).  The anchor core that
`cloud_anchor_service/main.py` imports (`core.anchor_manager`,
`core.persistence_engine`, `core.synchronization_manager`) is not present in
the sources, so that core is modelled from the specification; the service
shells are embedded directly from the Python sources.
-/

namespace MADDA

/-! ## Gateway telemetry decorators
    Embedded from `Backend/api_gateway/telemetry/__init__.py`. -/

/-- Model of a Python positional argument: either a callable or a plain value
(string parameters are the only non-callable arguments the gateway passes). -/
inductive PyArg (F : Type) where
  | func (f : F)
  | value (s : String)

/-- Embeds `trace_api_route` (telemetry/__init__.py lines 38-47): called with a
single callable argument it returns that argument; called with parameters it
returns a decorator that returns the wrapped function unchanged. -/
def traceApiRoute {F : Type} (args : List (PyArg F)) (kwargs : List (String × PyArg F)) :
    F ⊕ (F → F) :=
  match args, kwargs with
  | [PyArg.func f], _ => Sum.inl f
  | _, _ => Sum.inr (fun func => func)

/-- Embeds `trace_backend_call` (telemetry/__init__.py lines 49-58), whose body
is identical to `trace_api_route`. -/
def traceBackendCall {F : Type} (args : List (PyArg F)) (kwargs : List (String × PyArg F)) :
    F ⊕ (F → F) :=
  match args, kwargs with
  | [PyArg.func f], _ => Sum.inl f
  | _, _ => Sum.inr (fun func => func)

/-! ## Gateway request classification
    Embedded from `Backend/api_gateway/app.py` lines 263-292
    (`route_api_request`): the `target_service` computation. -/

/-- Embeds the if/elif prefix chain of `route_api_request` assigning
`target_service` (app.py lines 270-280). -/
def targetService (path : String) : String :=
  if path.startsWith "localization" || path.startsWith "slam"
      || path.startsWith "vio" || path.startsWith "pose" then "localization"
  else if path.startsWith "maps" || path.startsWith "reconstruction" then "mapping"
  else if path.startsWith "multiplayer" || path.startsWith "auth" then "multiplayer"
  else if path.startsWith "vps" then "vps-engine"
  else if path.startsWith "anchors" then "cloud-anchors"
  else "unknown"

/-- The prioritized routing table exactly as the claim describes it: prefix
groups tried in order, first match wins. -/
def routingTable : List (List String × String) :=
  [(["localization", "slam", "vio", "pose"], "localization"),
   (["maps", "reconstruction"], "mapping"),
   (["multiplayer", "auth"], "multiplayer"),
   (["vps"], "vps-engine"),
   (["anchors"], "cloud-anchors")]

/-- Classification written from the claim wording: the first routing-table
entry one of whose prefixes matches the path decides the service; a path
matching no entry is classified as unknown. -/
def claimClassify (path : String) : String :=
  match routingTable.find? (fun e => e.1.any (fun p => path.startsWith p)) with
  | some e => e.2
  | none => "unknown"

/-- All service labels the gateway can assign. -/
def serviceLabels : List String :=
  ["localization", "mapping", "multiplayer", "vps-engine", "cloud-anchors", "unknown"]

/-! ## Cloud anchor service endpoints
    Embedded from `Backend/cloud_anchor_service/main.py`.  The managers are
    modelled by the observable results of the calls the endpoints make:
    `health_check()` and `get_metrics()`, either of which may raise
    (modelled as `none`). -/

/-- Metrics summary returned by the anchor manager `get_metrics()`. -/
structure AnchorMetrics where
  totalAnchors : Nat
  activeSessions : Nat
deriving DecidableEq

/-- Metrics summary returned by the persistence engine `get_metrics()`. -/
structure PersistenceMetrics where
  storageBytes : Nat
deriving DecidableEq

/-- Metrics summary returned by the synchronization manager `get_metrics()`. -/
structure SyncMetrics where
  syncOperationsTotal : Nat
deriving DecidableEq

/-- Observable behaviour of the anchor manager global: results of the two
calls the endpoints make; `none` models the call raising an exception. -/
structure AnchorManagerS where
  healthCheckResult : Option Bool
  metricsResult : Option AnchorMetrics
deriving DecidableEq

/-- Observable behaviour of the persistence engine global. -/
structure PersistenceEngineS where
  healthCheckResult : Option Bool
  metricsResult : Option PersistenceMetrics
deriving DecidableEq

/-- Observable behaviour of the synchronization manager global. -/
structure SyncManagerS where
  healthCheckResult : Option Bool
  metricsResult : Option SyncMetrics
deriving DecidableEq

/-- The module-level mutable state of `cloud_anchor_service/main.py`: the three
service globals (lines 28-30), each possibly uninitialized. -/
structure SvcState where
  anchorManager : Option AnchorManagerS
  persistenceEngine : Option PersistenceEngineS
  syncManager : Option SyncManagerS
deriving DecidableEq

/-- Builds the anchor-metrics lines of the `/metrics` endpoint body
(main.py lines 204-221); an exception in `get_metrics()` skips the section. -/
def anchorMetricLines (am : AnchorManagerS) : List String :=
  match am.metricsResult with
  | none => []
  | some m =>
    ["# HELP spatial_cloud_anchors_total Total number of anchors",
     "# TYPE spatial_cloud_anchors_total gauge",
     "spatial_cloud_anchors_total " ++ toString m.totalAnchors,
     "# HELP spatial_cloud_anchors_sessions Active anchor sessions",
     "# TYPE spatial_cloud_anchors_sessions gauge",
     "spatial_cloud_anchors_sessions " ++ toString m.activeSessions]

/-- Builds the persistence lines of the `/metrics` endpoint body
(main.py lines 224-235). -/
def persistenceMetricLines (pe : PersistenceEngineS) : List String :=
  match pe.metricsResult with
  | none => []
  | some m =>
    ["# HELP spatial_cloud_anchors_storage_bytes Storage used in bytes",
     "# TYPE spatial_cloud_anchors_storage_bytes gauge",
     "spatial_cloud_anchors_storage_bytes " ++ toString m.storageBytes]

/-- Builds the synchronization lines of the `/metrics` endpoint body
(main.py lines 238-249). -/
def syncMetricLines (sm : SyncManagerS) : List String :=
  match sm.metricsResult with
  | none => []
  | some m =>
    ["# HELP spatial_cloud_anchors_sync_operations_total Total sync operations",
     "# TYPE spatial_cloud_anchors_sync_operations_total counter",
     "spatial_cloud_anchors_sync_operations_total " ++ toString m.syncOperationsTotal]

/-- Embeds the `/metrics` endpoint `prometheus_metrics` (main.py lines
180-267) as a state transformer: it reads the three globals and the metric
summaries, builds the Prometheus text, and returns the module state with the
response.  The label braces of the Prometheus info line are written with the
escapes of their code points. -/
def prometheusMetrics (st : SvcState) (env : String) (now : String) : SvcState × String :=
  let serviceUp : Nat :=
    if st.anchorManager.isSome && st.persistenceEngine.isSome && st.syncManager.isSome
    then 1 else 0
  let head : List String :=
    ["# HELP spatial_cloud_anchors_info Cloud anchor service information",
     "# TYPE spatial_cloud_anchors_info gauge",
     "spatial_cloud_anchors_info\x7bversion=\"1.0.0\",environment=\"" ++ env ++ "\"\x7d 1",
     "# HELP spatial_cloud_anchors_up Service availability",
     "# TYPE spatial_cloud_anchors_up gauge",
     "spatial_cloud_anchors_up " ++ toString serviceUp]
  let amLines := match st.anchorManager with
    | none => []
    | some am => anchorMetricLines am
  let peLines := match st.persistenceEngine with
    | none => []
    | some pe => persistenceMetricLines pe
  let smLines := match st.syncManager with
    | none => []
    | some sm => syncMetricLines sm
  let tail : List String :=
    ["# HELP spatial_cloud_anchors_last_update_timestamp Last metrics update",
     "# TYPE spatial_cloud_anchors_last_update_timestamp gauge",
     "spatial_cloud_anchors_last_update_timestamp " ++ now]
  (st, String.intercalate "\n" (head ++ amLines ++ peLines ++ smLines ++ tail))

/-- A minimal HTTP response: status code and the `status` field of the body. -/
structure HttpResp where
  code : Nat
  status : String
deriving DecidableEq

/-- Runs the three `health_check()` calls of the `/health` endpoint in order
(main.py lines 93-106); `none` means one of them raised, aborting the body. -/
def runHealthChecks (st : SvcState) : Option (Bool × Bool × Bool) := do
  let a ← match st.anchorManager with
    | none => some false
    | some am => am.healthCheckResult
  let p ← match st.persistenceEngine with
    | none => some false
    | some pe => pe.healthCheckResult
  let s ← match st.syncManager with
    | none => some false
    | some sm => sm.healthCheckResult
  some (a, p, s)

/-- Embeds the `/health` endpoint `health_check` (main.py lines 86-144) as a
state transformer: runs the three health checks, answers 200 healthy when all
pass, 503 unhealthy otherwise; an exception during the checks is caught and
answered with 503 unhealthy. -/
def healthCheck (st : SvcState) : SvcState × HttpResp :=
  match runHealthChecks st with
  | none => (st, ⟨503, "unhealthy"⟩)
  | some (a, p, s) =>
    if a && p && s then (st, ⟨200, "healthy"⟩)
    else (st, ⟨503, "unhealthy"⟩)

/-- Embeds the `/healthz` endpoint `health_check_minimal` (main.py lines
147-177): healthy iff the anchor manager and persistence engine globals are
both initialized; the sync manager is received but never consulted; the
`raised` flag models an exception inside the try block, which the handler
catches and answers with 503 unhealthy. -/
def healthCheckMinimal (am : Option AnchorManagerS) (pe : Option PersistenceEngineS)
    (_sm : Option SyncManagerS) (raised : Bool) : HttpResp :=
  if raised then ⟨503, "unhealthy"⟩
  else if am.isSome && pe.isSome then ⟨200, "healthy"⟩
  else ⟨503, "unhealthy"⟩

/-! ## Anchor core — modelled from the spec

Modelled from the spec: the modules `core.anchor_manager`,
`core.persistence_engine` and `core.synchronization_manager` imported by
`cloud_anchor_service/main.py` are missing from the sources, so the data
model (spec section 3), the Anchor Store operations (section 4.1), the
persistence log and recovery (section 4.2) and the synchronization fan-out
(section 4.3) are embedded from the specification text.  Float arithmetic is
modelled over the rationals; a possibly non-finite input float is an
`Option` rational, with `none` standing for NaN or an infinity.  The decay
factor and the asymptotic confidence update are rational realizations of the
policies the spec leaves as configuration. -/

/-- A position in the fixed world frame. -/
structure Vec3 where
  x : ℚ
  y : ℚ
  z : ℚ
deriving DecidableEq

/-- Squared Euclidean distance, used for merge-radius tests. -/
def Vec3.distSq (a b : Vec3) : ℚ :=
  (a.x - b.x) * (a.x - b.x) + (a.y - b.y) * (a.y - b.y) + (a.z - b.z) * (a.z - b.z)

/-- An orientation quaternion (stored as supplied, not renormalized, since
unit normalization is irrational; only its validity matters to the claims). -/
structure Quat where
  w : ℚ
  x : ℚ
  y : ℚ
  z : ℚ
deriving DecidableEq

/-- Squared norm of a quaternion. -/
def Quat.normSq (q : Quat) : ℚ := q.w * q.w + q.x * q.x + q.y * q.y + q.z * q.z

/-- A validated 6-DoF pose. -/
structure Pose where
  pos : Vec3
  orient : Quat
deriving DecidableEq

/-- A raw pose as submitted by the upstream producer: each float component may
be non-finite (`none`). -/
structure RawPose where
  px : Option ℚ
  py : Option ℚ
  pz : Option ℚ
  qw : Option ℚ
  qx : Option ℚ
  qy : Option ℚ
  qz : Option ℚ
deriving DecidableEq

/-- Validation of a submitted pose (spec 4.1): the position must be finite and
the orientation unit-normalizable, which requires finite components and a
positive squared norm. -/
def validatePose (r : RawPose) : Option Pose :=
  match r.px, r.py, r.pz, r.qw, r.qx, r.qy, r.qz with
  | some x, some y, some z, some w, some i, some j, some k =>
    if 0 < Quat.normSq ⟨w, i, j, k⟩ then some ⟨⟨x, y, z⟩, ⟨w, i, j, k⟩⟩ else none
  | _, _, _, _, _, _, _ => none

/-- The claim predicate: the submitted position contains a non-finite value. -/
def positionNonFinite (r : RawPose) : Prop :=
  r.px = none ∨ r.py = none ∨ r.pz = none

/-- The claim predicate: the submitted orientation is not unit-normalizable,
either because a component is non-finite or because the norm is not positive. -/
def orientationNotUnitNormalizable (r : RawPose) : Prop :=
  match r.qw, r.qx, r.qy, r.qz with
  | some w, some i, some j, some k => Quat.normSq ⟨w, i, j, k⟩ ≤ 0
  | _, _, _, _ => True

/-- Anchor lifecycle states (spec section 3). -/
inductive AnchorState where
  | pending
  | confirmed
  | merged
  | deleted
deriving DecidableEq

/-- States that may still mutate; `merged` and `deleted` are immutable
tombstones. -/
def isActive : AnchorState → Bool
  | .pending => true
  | .confirmed => true
  | .merged => false
  | .deleted => false

/-- Anchor visibility (spec section 3). -/
inductive Visibility where
  | priv
  | shared
deriving DecidableEq

/-- The unit of shared spatial truth (spec section 3).  The spatial cell is
derived from the position on demand rather than stored. -/
structure Anchor where
  id : Nat
  pose : Pose
  confidence : ℚ
  version : Nat
  state : AnchorState
  mergedInto : Option Nat
  ownerSession : Nat
  createdAt : ℚ
  lastObservedAt : ℚ
  observers : List Nat
  visibility : Visibility
deriving DecidableEq

/-- Policy parameters the spec leaves as configuration (spec section 9):
merge radius, grid cell size, confirmation threshold, prune threshold, grace
window and decay half-life. -/
structure Config where
  mergeRadius : ℚ
  cellSize : ℚ
  confirmThreshold : ℚ
  minConfidence : ℚ
  graceWindow : ℚ
  halfLife : ℚ
deriving DecidableEq

/-- Spatial cell of a position: quantization into the uniform grid
(spec 4.1). -/
def spatialCell (cellSize : ℚ) (p : Vec3) : Int × Int × Int :=
  (⌊p.x / cellSize⌋, ⌊p.y / cellSize⌋, ⌊p.z / cellSize⌋)

/-- Rational decay factor with the configured half-life: equal to one at zero
elapsed time, one half after one half-life, decreasing thereafter. -/
def decayFactor (cfg : Config) (elapsed : ℚ) : ℚ :=
  if elapsed ≤ 0 then 1 else cfg.halfLife / (cfg.halfLife + elapsed)

/-- Asymptotic confidence update toward one (spec 4.1): the gap to one is
shrunk by the observation confidence. -/
def asymUp (c obs : ℚ) : ℚ := c + (1 - c) * obs

/-- Confidence-weighted average of two poses (component-wise, the orientation
averaged unnormalized); a zero total weight keeps the first pose. -/
def wavgPose (p : Pose) (wp : ℚ) (q : Pose) (wq : ℚ) : Pose :=
  let total := wp + wq
  if total = 0 then p
  else
    ⟨⟨(wp * p.pos.x + wq * q.pos.x) / total,
      (wp * p.pos.y + wq * q.pos.y) / total,
      (wp * p.pos.z + wq * q.pos.z) / total⟩,
     ⟨(wp * p.orient.w + wq * q.orient.w) / total,
      (wp * p.orient.x + wq * q.orient.x) / total,
      (wp * p.orient.y + wq * q.orient.y) / total,
      (wp * p.orient.z + wq * q.orient.z) / total⟩⟩

/-- Observing-session set union, preserving first-seen order. -/
def unionObservers (xs ys : List Nat) : List Nat :=
  xs ++ ys.filter (fun s => decide (s ∉ xs))

/-- Mutation operations of the Anchor Store (spec 4.1). -/
inductive Op where
  | submit (raw : RawPose) (conf : ℚ) (session : Nat) (candidate : Option Nat) (now : ℚ)
  | delete (anchorId : Nat) (session : Nat) (elevated : Bool)
  | decayTick (now : ℚ)

/-- Error taxonomy (spec section 7), plus the rejections forced by the
tombstone invariant: a mutation addressed to an anchor in a terminal state is
refused. -/
inductive Err where
  | invalidPose
  | notOwner
  | notFound
  | terminalState
deriving DecidableEq

/-- Sync event operation kinds (spec section 3). -/
inductive SyncOp where
  | create
  | update
  | merge
  | delete
deriving DecidableEq

/-- An immutable sync fact, keyed by global sequence number (spec section 3). -/
structure SyncEvent where
  seq : Nat
  anchorId : Nat
  version : Nat
  op : SyncOp
  cell : Int × Int × Int
deriving DecidableEq

/-- A write-ahead log record: sequence, anchor id and the full anchor snapshot
after the mutation (spec 4.2). -/
structure Record where
  sequence : Nat
  anchorId : Nat
  snap : Anchor
deriving DecidableEq

/-- One anchor written by an accepted mutation, tagged with the sync
operation it announces. -/
structure Change where
  op : SyncOp
  anchor : Anchor
deriving DecidableEq

/-- The authoritative system state: anchor table, id and sequence allocators,
write-ahead log, and the retained sync-event backlog. -/
structure Sys where
  table : List Anchor
  nextId : Nat
  nextSeq : Nat
  log : List Record
  events : List SyncEvent
deriving DecidableEq

/-- The empty initial system.  Sequences start at one so that a fresh snapshot
can be tagged with sequence zero. -/
def initSys : Sys := ⟨[], 0, 1, [], []⟩

/-- Looks an anchor up by id (first match). -/
def lookup : List Anchor → Nat → Option Anchor
  | [], _ => none
  | a :: t, i => if a.id = i then some a else lookup t i

/-- Writes an anchor into the table: replaces the entry with the same id, or
appends when the id is new. -/
def setAnchor : List Anchor → Anchor → List Anchor
  | [], a => [a]
  | b :: t, a => if b.id = a.id then a :: t else b :: setAnchor t a

/-- Applies a list of changes to the table in order. -/
def applyChanges (t : List Anchor) : List Change → List Anchor
  | [] => t
  | c :: cs => applyChanges (setAnchor t c.anchor) cs

/-- Log records for the changes of one accepted mutation, numbered
consecutively from the given next sequence. -/
def recordsOf (n : Nat) : List Change → List Record
  | [] => []
  | c :: cs => ⟨n, c.anchor.id, c.anchor⟩ :: recordsOf (n + 1) cs

/-- Sync events for the changes of one accepted mutation, sharing the
sequence numbers of the log records. -/
def eventsOf (cfg : Config) (n : Nat) : List Change → List SyncEvent
  | [] => []
  | c :: cs =>
    ⟨n, c.anchor.id, c.anchor.version, c.op, spatialCell cfg.cellSize c.anchor.pose.pos⟩
      :: eventsOf cfg (n + 1) cs

/-- Commits the changes of one accepted mutation atomically: the table is
updated, the log and the event backlog are appended, and the allocators
advance (spec 4.1: applied, then logged, then reported committed). -/
def commit (cfg : Config) (st : Sys) (nid : Nat) (cs : List Change) : Sys :=
  { table := applyChanges st.table cs
    nextId := nid
    nextSeq := st.nextSeq + cs.length
    log := st.log ++ recordsOf st.nextSeq cs
    events := st.events ++ eventsOf cfg st.nextSeq cs }

/-- The merge-candidate query (spec 4.1): shared anchors in an active state
within the merge radius of the observed position. -/
def matchesFor (cfg : Config) (t : List Anchor) (p : Vec3) : List Anchor :=
  t.filter (fun a =>
    decide (a.visibility = Visibility.shared) && isActive a.state &&
      decide (Vec3.distSq a.pose.pos p ≤ cfg.mergeRadius * cfg.mergeRadius))

/-- The anchor with the lowest id among a head anchor and a list
(deterministic merge tie-break, spec 4.1). -/
def minByIdList : Anchor → List Anchor → Anchor
  | a, [] => a
  | a, b :: l => minByIdList (if b.id < a.id then b else a) l

/-- A freshly created anchor (spec 4.1: no match creates a pending anchor at
version zero, owned by the submitting session, shared). -/
def newAnchor (i : Nat) (pose : Pose) (conf : ℚ) (session : Nat) (now : ℚ) : Anchor :=
  ⟨i, pose, conf, 0, .pending, none, session, now, now, [session], .shared⟩

/-- Applies one observation to an existing anchor (spec 4.1): weighted-average
the pose, asymptotic confidence update, record the observing session,
increment the version, and promote pending to confirmed once the confidence
threshold is exceeded and two sessions have contributed. -/
def updateAnchor (cfg : Config) (a : Anchor) (pose : Pose) (conf : ℚ) (session : Nat)
    (now : ℚ) : Anchor :=
  let p := wavgPose a.pose a.confidence pose conf
  let c := asymUp a.confidence conf
  let obs := if session ∈ a.observers then a.observers else a.observers ++ [session]
  let s := if a.state = .pending ∧ cfg.confirmThreshold < c ∧ 2 ≤ obs.length
           then AnchorState.confirmed else a.state
  { a with pose := p, confidence := c, version := a.version + 1, state := s,
           lastObservedAt := now, observers := obs }

/-- Canonical anchor absorbing one merged duplicate (spec 4.1): the weighted
pose and the observers are absorbed; identity, version and state are
untouched until the observation itself is applied. -/
def absorbAnchor (acc o : Anchor) : Anchor :=
  { acc with pose := wavgPose acc.pose acc.confidence o.pose o.confidence,
             confidence := asymUp acc.confidence o.confidence,
             observers := unionObservers acc.observers o.observers }

/-- Tombstones a duplicate into the canonical anchor (spec 4.1). -/
def mergeInto (canId : Nat) (o : Anchor) : Anchor :=
  { o with state := .merged, mergedInto := some canId, version := o.version + 1 }

/-- The changes and next-id allocation of an accepted observation against the
spatial query result (spec 4.1): create on no match, update on one match, and
on multiple matches the lowest-id match becomes canonical, absorbs the
weighted pose of all others, and the others are tombstoned as merged. -/
def spatialPlan (cfg : Config) (st : Sys) (pose : Pose) (conf : ℚ) (session : Nat)
    (now : ℚ) : List Change × Nat :=
  match matchesFor cfg st.table pose.pos with
  | [] => ([⟨.create, newAnchor st.nextId pose conf session now⟩], st.nextId + 1)
  | [a] => ([⟨.update, updateAnchor cfg a pose conf session now⟩], st.nextId)
  | a :: b :: rest =>
    let can := minByIdList a (b :: rest)
    let others := (a :: b :: rest).filter (fun o => decide (¬ o.id = can.id))
    let absorbed := others.foldl absorbAnchor can
    ((⟨.update, updateAnchor cfg absorbed pose conf session now⟩ ::
        others.map (fun o => ⟨.merge, mergeInto can.id o⟩)), st.nextId)

/-- The changes and next-id allocation of a submitted observation
(spec 4.1): a candidate id addressing an existing active anchor is an update
to that anchor; otherwise the spatial query decides. -/
def submitPlan (cfg : Config) (st : Sys) (pose : Pose) (conf : ℚ) (session : Nat)
    (candidate : Option Nat) (now : ℚ) : List Change × Nat :=
  match candidate.bind (lookup st.table) with
  | some a =>
    if isActive a.state
    then ([⟨.update, updateAnchor cfg a pose conf session now⟩], st.nextId)
    else spatialPlan cfg st pose conf session now
  | none => spatialPlan cfg st pose conf session now

/-- One decay step of a single active anchor (spec 4.1 and 4.4): the
confidence is multiplied by the elapsed-time decay factor; an anchor falling
below the minimum confidence and not re-observed within the grace window is
tombstoned as deleted. -/
def decayAnchor (cfg : Config) (now : ℚ) (a : Anchor) : Change :=
  let c := a.confidence * decayFactor cfg (now - a.lastObservedAt)
  if c < cfg.minConfidence ∧ cfg.graceWindow < now - a.lastObservedAt
  then ⟨.delete, { a with confidence := c, state := .deleted, version := a.version + 1 }⟩
  else ⟨.update, { a with confidence := c, version := a.version + 1 }⟩

/-- The changes of a decay tick: every active anchor decays; tombstones are
untouched. -/
def decayPlan (cfg : Config) (st : Sys) (now : ℚ) : List Change :=
  st.table.filterMap (fun a =>
    if isActive a.state then some (decayAnchor cfg now a) else none)

/-- One serialized mutation of the Anchor Store (spec 4.1 and section 5):
validation and authorization first, then an atomic commit of the full change
set, or a rejection leaving the state untouched. -/
def applyOp (cfg : Config) (op : Op) (st : Sys) : Except Err Sys :=
  match op with
  | .submit raw conf session candidate now =>
    match validatePose raw with
    | none => .error .invalidPose
    | some pose =>
      let plan := submitPlan cfg st pose conf session candidate now
      .ok (commit cfg st plan.2 plan.1)
  | .delete anchorId session elevated =>
    match lookup st.table anchorId with
    | none => .error .notFound
    | some a =>
      if session = a.ownerSession ∨ elevated = true then
        if isActive a.state
        then .ok (commit cfg st st.nextId
          [⟨.delete, { a with state := .deleted, version := a.version + 1 }⟩])
        else .error .terminalState
      else .error .notOwner
  | .decayTick now => .ok (commit cfg st st.nextId (decayPlan cfg st now))

/-- Reachability under the serialized writer: the initial system plus any
sequence of accepted mutations. -/
inductive Reachable (cfg : Config) : Sys → Prop where
  | init : Reachable cfg initSys
  | step {st st' : Sys} {op : Op} :
      Reachable cfg st → applyOp cfg op st = .ok st' → Reachable cfg st'

/-! ### Synchronization fan-out (spec 4.3) -/

/-- The spatial region a session subscribes to. -/
structure Region where
  center : Vec3
  radius : ℚ
deriving DecidableEq

/-- Chebyshev distance between grid cells. -/
def cellDist (c d : Int × Int × Int) : Int :=
  max (c.1 - d.1).natAbs (max (c.2.1 - d.2.1).natAbs (c.2.2 - d.2.2).natAbs)

/-- Whether a subscribed region is affected by an event in the given cell:
the cell lies within the region, widened by one neighbor ring (spec 4.3). -/
def regionWants (cfg : Config) (reg : Region) (cell : Int × Int × Int) : Bool :=
  decide (cellDist (spatialCell cfg.cellSize reg.center) cell ≤
    ⌈reg.radius / cfg.cellSize⌉ + 1)

/-- The events delivered to a session subscribed to a region: the retained
backlog filtered by region intersection, in backlog order (spec 4.3). -/
def delivered (cfg : Config) (reg : Region) (st : Sys) : List SyncEvent :=
  st.events.filter (fun e => regionWants cfg reg e.cell)

/-! ### Persistence recovery (spec 4.2) -/

/-- Persistence integrity failures (spec section 7).  The snapshot checksum
is not modelled, so `corruptSnapshot` is never produced here. -/
inductive PErr where
  | corruptLog
  | corruptSnapshot
deriving DecidableEq

/-- A full-table snapshot tagged with the last log sequence it includes. -/
structure Snapshot where
  seq : Nat
  table : List Anchor
deriving DecidableEq

/-- Replays log records onto a table in order: each record installs its full
anchor snapshot. -/
def replayLog (t : List Anchor) (recs : List Record) : List Anchor :=
  recs.foldl (fun acc r => setAnchor acc r.snap) t

/-- Startup recovery (spec 4.2): replay all log records with sequence greater
than the snapshot sequence, in ascending order, refusing a log with a gap in
its sequence numbers; returns the recovered table and the next sequence. -/
def load (snap : Snapshot) (log : List Record) : Except PErr (List Anchor × Nat) :=
  let recs := log.filter (fun r => decide (snap.seq < r.sequence))
  if recs.map (fun r => r.sequence) = List.range' (snap.seq + 1) recs.length
  then .ok (replayLog snap.table recs, snap.seq + recs.length + 1)
  else .error .corruptLog

/-- Snapshots a recovered state: the full table, tagged with the sequence it
supersedes. -/
def mkSnapshot (t : List Anchor) (nextSeq : Nat) : Snapshot := ⟨nextSeq - 1, t⟩

/-! ### Invariants -/

/-- Well-formedness of a system state: unique anchor ids below the id
allocator, log and backlog sequences strictly increasing and below the
sequence allocator, event versions bounded by the table versions, and event
sequence order refining per-anchor version order. -/
structure WF (st : Sys) : Prop where
  idsNodup : (st.table.map Anchor.id).Nodup
  idsLt : ∀ a ∈ st.table, a.id < st.nextId
  logSeqLt : ∀ r ∈ st.log, r.sequence < st.nextSeq
  logMono : st.log.Pairwise (fun r s => r.sequence < s.sequence)
  evSeqLt : ∀ e ∈ st.events, e.seq < st.nextSeq
  evPairwise : st.events.Pairwise (fun e f =>
    e.seq < f.seq ∧ (e.anchorId = f.anchorId → e.version < f.version))
  evVer : ∀ e ∈ st.events, ∃ a ∈ st.table, a.id = e.anchorId ∧ e.version ≤ a.version

/-- Soundness of the change set of one accepted mutation: the written ids are
distinct, the id allocator only advances, and each written anchor either
supersedes a table entry with its version incremented once, or is brand new,
carved from the allocator range. -/
def ChangesOK (st : Sys) (cs : List Change) (nid : Nat) : Prop :=
  (cs.map (fun c => c.anchor.id)).Nodup ∧ st.nextId ≤ nid ∧
  ∀ c ∈ cs,
    (∃ a, lookup st.table c.anchor.id = some a ∧ c.anchor.version = a.version + 1) ∨
    (lookup st.table c.anchor.id = none ∧ st.nextId ≤ c.anchor.id ∧ c.anchor.id < nid)

/-! ### Concrete instances used to exercise the model -/

/-- A raw pose at the given finite position with the identity orientation. -/
def rawOf (x y z : ℚ) : RawPose :=
  ⟨some x, some y, some z, some 1, some 0, some 0, some 0⟩

/-- A concrete configuration: merge radius one, unit cells, an unreachable
confirmation threshold, and a ten-unit grace window and half-life. -/
def cfgUnit : Config := ⟨1, 1, 2, 0, 10, 10⟩

/-- Applies a mutation, keeping the old state when it is rejected. -/
def stepOr (cfg : Config) (op : Op) (st : Sys) : Sys :=
  match applyOp cfg op st with
  | .ok s => s
  | .error _ => st

/-- First observation of the drift scenario: creates anchor zero at the
origin. -/
def cexA : Sys := stepOr cfgUnit (.submit (rawOf 0 0 0) (1/2) 1 none 0) initSys

/-- Second observation: outside the merge radius of anchor zero, creates
anchor one. -/
def cexB : Sys :=
  stepOr cfgUnit (.submit (rawOf (1/2) (9/10) 0) (1/2) 1 none 0) cexA

/-- Third observation: matches only anchor zero, whose averaged pose drifts
to within the merge radius of anchor one. -/
def cexC : Sys := stepOr cfgUnit (.submit (rawOf 1 0 0) (1/2) 1 none 0) cexB

/-- Second state of the merge scenario: two distant pending anchors. -/
def mrgB : Sys :=
  stepOr cfgUnit (.submit (rawOf (3/2) 0 0) (1/2) 2 none 0) cexA

/-- The observation between the two anchors of the merge scenario: both
match, so the lower id absorbs and the other is merged. -/
def mrgOp : Op := .submit (rawOf (3/4) 0 0) (1/2) 3 none 0

/-- Result of the two-match merge observation. -/
def mrgC : Sys := stepOr cfgUnit mrgOp mrgB

/-- The identity-orientation pose at the origin. -/
def poseOrigin : Pose := ⟨⟨0, 0, 0⟩, ⟨1, 0, 0, 0⟩⟩

/-- The anchor created by the first observation of the scenarios. -/
def anchor0 : Anchor :=
  ⟨0, ⟨⟨0, 0, 0⟩, ⟨1, 0, 0, 0⟩⟩, 1/2, 0, .pending, none, 1, 0, 0, [1], .shared⟩

/-- The anchor created by the second observation of the drift scenario. -/
def anchor1 : Anchor :=
  ⟨1, ⟨⟨1/2, 9/10, 0⟩, ⟨1, 0, 0, 0⟩⟩, 1/2, 0, .pending, none, 1, 0, 0, [1], .shared⟩

/-- Anchor zero after absorbing the third observation of the drift scenario:
its pose has drifted halfway toward that observation. -/
def anchor0m : Anchor :=
  ⟨0, ⟨⟨1/2, 0, 0⟩, ⟨1, 0, 0, 0⟩⟩, 3/4, 1, .pending, none, 1, 0, 0, [1], .shared⟩

/-- The anchor created by the second observation of the merge scenario. -/
def anchorB : Anchor :=
  ⟨1, ⟨⟨3/2, 0, 0⟩, ⟨1, 0, 0, 0⟩⟩, 1/2, 0, .pending, none, 2, 0, 0, [2], .shared⟩

/-- A unit region around the origin. -/
def regionO : Region := ⟨⟨0, 0, 0⟩, 1⟩

/-- A raw pose whose position x component is non-finite. -/
def rawBad : RawPose := ⟨none, some 0, some 0, some 1, some 0, some 0, some 0⟩

/-! ## Theorems -/

theorem lookup_mem {t : List Anchor} {i : Nat} {a : Anchor}
    (h : lookup t i = some a) : a ∈ t ∧ a.id = i := by
  induction t with
  | nil => simp [lookup] at h
  | cons b t ih =>
    rw [lookup] at h
    by_cases hb : b.id = i
    · simp [hb] at h
      exact ⟨by simp [h], h ▸ hb⟩
    · simp [hb] at h
      rcases ih h with ⟨hm, hid⟩
      exact ⟨List.mem_cons_of_mem _ hm, hid⟩

theorem lookup_eq_none {t : List Anchor} {i : Nat} :
    lookup t i = none ↔ ∀ a ∈ t, a.id ≠ i := by
  induction t with
  | nil => simp [lookup]
  | cons b t ih =>
    rw [lookup]
    by_cases hb : b.id = i
    · simp [hb]
    · simp [hb, ih]

theorem mem_lookup_nodup {t : List Anchor} {a : Anchor}
    (hn : (t.map Anchor.id).Nodup) (ha : a ∈ t) : lookup t a.id = some a := by
  induction t with
  | nil => simp at ha
  | cons b t ih =>
    rcases List.mem_cons.mp ha with h | h
    · subst h
      simp [lookup]
    · rw [lookup]
      rw [List.map_cons, List.nodup_cons] at hn
      have hne : b.id ≠ a.id := by
        intro he
        exact hn.1 (he ▸ List.mem_map_of_mem Anchor.id h)
      simp [hne]
      exact ih hn.2 h

theorem mem_setAnchor {t : List Anchor} {a b : Anchor}
    (h : b ∈ setAnchor t a) : b = a ∨ b ∈ t := by
  induction t with
  | nil => simpa [setAnchor] using h
  | cons c t ih =>
    rw [setAnchor] at h
    by_cases hc : c.id = a.id
    · simp [hc] at h
      rcases h with h | h
      · exact Or.inl h
      · exact Or.inr (List.mem_cons_of_mem _ h)
    · simp [hc] at h
      rcases h with h | h
      · exact Or.inr (by simp [h])
      · rcases ih h with h' | h'
        · exact Or.inl h'
        · exact Or.inr (List.mem_cons_of_mem _ h')

theorem lookup_setAnchor_self {t : List Anchor} {a : Anchor} :
    lookup (setAnchor t a) a.id = some a := by
  induction t with
  | nil => simp [setAnchor, lookup]
  | cons b t ih =>
    rw [setAnchor]
    by_cases hb : b.id = a.id
    · simp [hb, lookup]
    · simp [hb, lookup, ih]

theorem lookup_setAnchor_ne {t : List Anchor} {a : Anchor} {i : Nat}
    (h : i ≠ a.id) : lookup (setAnchor t a) i = lookup t i := by
  induction t with
  | nil => simp [setAnchor, lookup, Ne.symm h]
  | cons b t ih =>
    rw [setAnchor]
    by_cases hb : b.id = a.id
    · have hbi : ¬ b.id = i := fun he => h (he ▸ hb)
      simp [hb, lookup, hbi, Ne.symm h]
    · by_cases hbi : b.id = i
      · simp [hb, lookup, hbi, h]
      · simp [hb, lookup, hbi, h, ih]

theorem map_id_setAnchor_mem {t : List Anchor} {a : Anchor}
    (h : a.id ∈ t.map Anchor.id) :
    (setAnchor t a).map Anchor.id = t.map Anchor.id := by
  induction t with
  | nil => simp at h
  | cons b t ih =>
    rw [setAnchor]
    rw [List.map_cons, List.mem_cons] at h
    by_cases hb : b.id = a.id
    · simp [hb]
    · rcases h with h | h
      · exact absurd h.symm hb
      · simp [hb, ih h]

theorem map_id_setAnchor_new {t : List Anchor} {a : Anchor}
    (h : a.id ∉ t.map Anchor.id) :
    (setAnchor t a).map Anchor.id = t.map Anchor.id ++ [a.id] := by
  induction t with
  | nil => simp [setAnchor]
  | cons b t ih =>
    rw [setAnchor]
    rw [List.map_cons, List.mem_cons] at h
    push_neg at h
    by_cases hb : b.id = a.id
    · exact absurd hb.symm h.1
    · rw [if_neg hb, List.map_cons, List.map_cons, ih h.2, List.cons_append]

theorem nodup_setAnchor {t : List Anchor} {a : Anchor}
    (hn : (t.map Anchor.id).Nodup) : ((setAnchor t a).map Anchor.id).Nodup := by
  by_cases h : a.id ∈ t.map Anchor.id
  · rw [map_id_setAnchor_mem h]
    exact hn
  · rw [map_id_setAnchor_new h]
    refine List.Nodup.append hn (List.nodup_singleton _) ?_
    intro x hx hx'
    rw [List.mem_singleton] at hx'
    exact h (hx' ▸ hx)

theorem mem_applyChanges {t : List Anchor} {cs : List Change} {b : Anchor}
    (h : b ∈ applyChanges t cs) : b ∈ t ∨ ∃ c ∈ cs, b = c.anchor := by
  induction cs generalizing t with
  | nil => exact Or.inl h
  | cons c cs ih =>
    rw [applyChanges] at h
    rcases ih h with h' | ⟨c', hc', hb⟩
    · rcases mem_setAnchor h' with h'' | h''
      · exact Or.inr ⟨c, List.mem_cons_self c cs, h''⟩
      · exact Or.inl h''
    · exact Or.inr ⟨c', List.mem_cons_of_mem _ hc', hb⟩

theorem nodup_applyChanges {t : List Anchor} {cs : List Change}
    (hn : (t.map Anchor.id).Nodup) : ((applyChanges t cs).map Anchor.id).Nodup := by
  induction cs generalizing t with
  | nil => exact hn
  | cons c cs ih =>
    rw [applyChanges]
    exact ih (nodup_setAnchor hn)

theorem lookup_applyChanges_notin {t : List Anchor} {cs : List Change} {i : Nat}
    (h : ∀ c ∈ cs, c.anchor.id ≠ i) :
    lookup (applyChanges t cs) i = lookup t i := by
  induction cs generalizing t with
  | nil => rfl
  | cons c cs ih =>
    rw [applyChanges]
    rw [ih (fun c' hc' => h c' (List.mem_cons_of_mem _ hc'))]
    exact lookup_setAnchor_ne (fun he => h c (List.mem_cons_self c cs) he.symm)

theorem lookup_applyChanges_mem {t : List Anchor} {cs : List Change} {c : Change}
    (hn : (cs.map (fun c => c.anchor.id)).Nodup) (hc : c ∈ cs) :
    lookup (applyChanges t cs) c.anchor.id = some c.anchor := by
  induction cs generalizing t with
  | nil => simp at hc
  | cons d cs ih =>
    rw [List.map_cons, List.nodup_cons] at hn
    rw [applyChanges]
    rcases List.mem_cons.mp hc with h | h
    · subst h
      rw [lookup_applyChanges_notin]
      · exact lookup_setAnchor_self
      · intro c' hc' he
        exact hn.1 (he ▸ List.mem_map_of_mem (fun c => c.anchor.id) hc')
    · exact ih hn.2 h

theorem mem_recordsOf {n : Nat} {cs : List Change} {r : Record}
    (h : r ∈ recordsOf n cs) :
    ∃ c ∈ cs, r.anchorId = c.anchor.id ∧ r.snap = c.anchor ∧
      n ≤ r.sequence ∧ r.sequence < n + cs.length := by
  induction cs generalizing n with
  | nil => simp [recordsOf] at h
  | cons c cs ih =>
    rw [recordsOf] at h
    rcases List.mem_cons.mp h with h' | h'
    · subst h'
      exact ⟨c, List.mem_cons_self c cs, rfl, rfl, Nat.le_refl n, by simp⟩
    · rcases ih h' with ⟨c', hc', h1, h2, h3, h4⟩
      refine ⟨c', List.mem_cons_of_mem _ hc', h1, h2, Nat.le_of_succ_le h3, ?_⟩
      simp only [List.length_cons] at h4 ⊢
      omega

theorem recordsOf_mem_of_change {n : Nat} {cs : List Change} {c : Change}
    (h : c ∈ cs) :
    ∃ r ∈ recordsOf n cs, r.anchorId = c.anchor.id ∧ r.snap = c.anchor := by
  induction cs generalizing n with
  | nil => simp at h
  | cons d cs ih =>
    rw [recordsOf]
    rcases List.mem_cons.mp h with h' | h'
    · subst h'
      exact ⟨⟨n, c.anchor.id, c.anchor⟩, List.mem_cons_self _ _, rfl, rfl⟩
    · rcases ih (n := n + 1) h' with ⟨r, hr, h1, h2⟩
      exact ⟨r, List.mem_cons_of_mem _ hr, h1, h2⟩

theorem recordsOf_pairwise {n : Nat} {cs : List Change} :
    (recordsOf n cs).Pairwise (fun r s => r.sequence < s.sequence) := by
  induction cs generalizing n with
  | nil => exact List.Pairwise.nil
  | cons c cs ih =>
    rw [recordsOf]
    refine List.Pairwise.cons ?_ ih
    intro r hr
    rcases mem_recordsOf hr with ⟨_, _, _, _, h3, _⟩
    exact Nat.lt_of_lt_of_le (Nat.lt_succ_self n) h3

theorem mem_eventsOf {cfg : Config} {n : Nat} {cs : List Change} {e : SyncEvent}
    (h : e ∈ eventsOf cfg n cs) :
    ∃ c ∈ cs, e.anchorId = c.anchor.id ∧ e.version = c.anchor.version ∧
      n ≤ e.seq ∧ e.seq < n + cs.length := by
  induction cs generalizing n with
  | nil => simp [eventsOf] at h
  | cons c cs ih =>
    rw [eventsOf] at h
    rcases List.mem_cons.mp h with h' | h'
    · subst h'
      exact ⟨c, List.mem_cons_self c cs, rfl, rfl, Nat.le_refl n, by simp⟩
    · rcases ih h' with ⟨c', hc', h1, h2, h3, h4⟩
      refine ⟨c', List.mem_cons_of_mem _ hc', h1, h2, Nat.le_of_succ_le h3, ?_⟩
      simp only [List.length_cons] at h4 ⊢
      omega

theorem eventsOf_pairwise {cfg : Config} {n : Nat} {cs : List Change}
    (hn : (cs.map (fun c => c.anchor.id)).Nodup) :
    (eventsOf cfg n cs).Pairwise (fun e f =>
      e.seq < f.seq ∧ (e.anchorId = f.anchorId → e.version < f.version)) := by
  induction cs generalizing n with
  | nil => exact List.Pairwise.nil
  | cons c cs ih =>
    rw [List.map_cons, List.nodup_cons] at hn
    rw [eventsOf]
    refine List.Pairwise.cons ?_ (ih hn.2)
    intro e he
    rcases mem_eventsOf he with ⟨c', hc', h1, _, h3, _⟩
    refine ⟨Nat.lt_of_lt_of_le (Nat.lt_succ_self n) h3, ?_⟩
    intro hid
    have hc0 : c.anchor.id = e.anchorId := hid
    have hc2 : c.anchor.id = c'.anchor.id := hc0.trans h1
    exact (hn.1 (by rw [hc2]; exact List.mem_map_of_mem (fun c => c.anchor.id) hc')).elim

theorem lookup_of_mem_id {t : List Anchor} {a : Anchor} {i : Nat}
    (hn : (t.map Anchor.id).Nodup) (ha : a ∈ t) (hi : a.id = i) :
    lookup t i = some a := by
  rw [← hi]
  exact mem_lookup_nodup hn ha

theorem commit_wf {cfg : Config} {st : Sys} {cs : List Change} {nid : Nat}
    (hwf : WF st) (hok : ChangesOK st cs nid) : WF (commit cfg st nid cs) := by
  obtain ⟨hnd, hle, hch⟩ := hok
  refine ⟨?_, ?_, ?_, ?_, ?_, ?_, ?_⟩ <;> simp only [commit]
  · exact nodup_applyChanges hwf.idsNodup
  · intro a ha
    rcases mem_applyChanges ha with h | ⟨c, hc, hb⟩
    · exact Nat.lt_of_lt_of_le (hwf.idsLt a h) hle
    · subst hb
      rcases hch c hc with ⟨a', ha', _⟩ | ⟨_, _, hlt⟩
      · rcases lookup_mem ha' with ⟨hm, hid⟩
        exact hid ▸ Nat.lt_of_lt_of_le (hwf.idsLt a' hm) hle
      · exact hlt
  · intro r hr
    rcases List.mem_append.mp hr with h | h
    · exact Nat.lt_of_lt_of_le (hwf.logSeqLt r h) (Nat.le_add_right _ _)
    · rcases mem_recordsOf h with ⟨_, _, _, _, _, h5⟩
      exact h5
  · rw [List.pairwise_append]
    refine ⟨hwf.logMono, recordsOf_pairwise, ?_⟩
    intro r hr s hs
    rcases mem_recordsOf hs with ⟨_, _, _, _, h4, _⟩
    exact Nat.lt_of_lt_of_le (hwf.logSeqLt r hr) h4
  · intro e he
    rcases List.mem_append.mp he with h | h
    · exact Nat.lt_of_lt_of_le (hwf.evSeqLt e h) (Nat.le_add_right _ _)
    · rcases mem_eventsOf h with ⟨_, _, _, _, _, h5⟩
      exact h5
  · rw [List.pairwise_append]
    refine ⟨hwf.evPairwise, eventsOf_pairwise hnd, ?_⟩
    intro e he f hf
    rcases mem_eventsOf hf with ⟨c, hc, hfid, hfver, h4, _⟩
    refine ⟨Nat.lt_of_lt_of_le (hwf.evSeqLt e he) h4, ?_⟩
    intro hid
    rcases hwf.evVer e he with ⟨a, ham, haid, haver⟩
    rcases hch c hc with ⟨a', ha', hver⟩ | ⟨hnone, _, _⟩
    · have : lookup st.table c.anchor.id = some a :=
        lookup_of_mem_id hwf.idsNodup ham (by rw [haid, hid, hfid])
      have haa : a = a' := by
        rw [this] at ha'
        exact Option.some.inj ha'
      rw [hfver, hver, ← haa]
      exact Nat.lt_of_le_of_lt haver (Nat.lt_succ_self a.version)
    · have hcontra : lookup st.table c.anchor.id = some a :=
        lookup_of_mem_id hwf.idsNodup ham (haid.trans (hid.trans hfid))
      rw [hnone] at hcontra
      exact Option.noConfusion hcontra
  · intro e he
    rcases List.mem_append.mp he with h | h
    · rcases hwf.evVer e h with ⟨a, ham, haid, haver⟩
      by_cases hmem : ∃ c ∈ cs, c.anchor.id = e.anchorId
      · rcases hmem with ⟨c, hc, hcid⟩
        have hl : lookup (applyChanges st.table cs) c.anchor.id = some c.anchor :=
          lookup_applyChanges_mem hnd hc
        rcases lookup_mem hl with ⟨hm, _⟩
        refine ⟨c.anchor, hm, hcid, ?_⟩
        rcases hch c hc with ⟨a', ha', hver⟩ | ⟨hnone, _, _⟩
        · have : lookup st.table c.anchor.id = some a :=
            lookup_of_mem_id hwf.idsNodup ham (by rw [haid, hcid])
          have haa : a = a' := by
            rw [this] at ha'
            exact Option.some.inj ha'
          rw [hver, ← haa]
          exact Nat.le_of_lt (Nat.lt_succ_of_le haver)
        · have hcontra : lookup st.table c.anchor.id = some a :=
            lookup_of_mem_id hwf.idsNodup ham (haid.trans hcid.symm)
          rw [hnone] at hcontra
          exact Option.noConfusion hcontra
      · push_neg at hmem
        have hl : lookup (applyChanges st.table cs) e.anchorId = some a := by
          rw [lookup_applyChanges_notin hmem]
          exact lookup_of_mem_id hwf.idsNodup ham haid
        rcases lookup_mem hl with ⟨hm, _⟩
        exact ⟨a, hm, haid, haver⟩
    · rcases mem_eventsOf h with ⟨c, hc, hfid, hfver, _, _⟩
      have hl : lookup (applyChanges st.table cs) c.anchor.id = some c.anchor :=
        lookup_applyChanges_mem hnd hc
      rcases lookup_mem hl with ⟨hm, _⟩
      exact ⟨c.anchor, hm, hfid.symm, Nat.le_of_eq hfver⟩

theorem foldl_absorb_id {l : List Anchor} {acc : Anchor} :
    (l.foldl absorbAnchor acc).id = acc.id := by
  induction l generalizing acc with
  | nil => rfl
  | cons o l ih => rw [List.foldl_cons, ih]; rfl

theorem foldl_absorb_version {l : List Anchor} {acc : Anchor} :
    (l.foldl absorbAnchor acc).version = acc.version := by
  induction l generalizing acc with
  | nil => rfl
  | cons o l ih => rw [List.foldl_cons, ih]; rfl

theorem foldl_absorb_state {l : List Anchor} {acc : Anchor} :
    (l.foldl absorbAnchor acc).state = acc.state := by
  induction l generalizing acc with
  | nil => rfl
  | cons o l ih => rw [List.foldl_cons, ih]; rfl

theorem updateAnchor_id {cfg : Config} {a : Anchor} {p : Pose} {c : ℚ} {s : Nat} {now : ℚ} :
    (updateAnchor cfg a p c s now).id = a.id := rfl

theorem updateAnchor_version {cfg : Config} {a : Anchor} {p : Pose} {c : ℚ} {s : Nat}
    {now : ℚ} : (updateAnchor cfg a p c s now).version = a.version + 1 := rfl

theorem updateAnchor_state_active {cfg : Config} {a : Anchor} {p : Pose} {c : ℚ} {s : Nat}
    {now : ℚ} (h : isActive a.state = true) :
    isActive (updateAnchor cfg a p c s now).state = true := by
  unfold updateAnchor
  dsimp only
  split <;> split <;> first | rfl | exact h

theorem decayAnchor_id {cfg : Config} {now : ℚ} {a : Anchor} :
    (decayAnchor cfg now a).anchor.id = a.id := by
  unfold decayAnchor
  dsimp only
  split <;> rfl

theorem decayAnchor_version {cfg : Config} {now : ℚ} {a : Anchor} :
    (decayAnchor cfg now a).anchor.version = a.version + 1 := by
  unfold decayAnchor
  dsimp only
  split <;> rfl

theorem decayChanges_ids {cfg : Config} {now : ℚ} (t : List Anchor) :
    ((t.filterMap (fun a =>
        if isActive a.state then some (decayAnchor cfg now a) else none)).map
      (fun c => c.anchor.id)) =
    (t.filter (fun a => isActive a.state)).map Anchor.id := by
  induction t with
  | nil => rfl
  | cons a t ih =>
    by_cases h : isActive a.state
    · rw [List.filterMap_cons, List.filter_cons]
      simp only [h, if_pos, List.map_cons, ih, decayAnchor_id]
    · rw [List.filterMap_cons, List.filter_cons]
      simp only [h, if_neg]
      simp only [Bool.false_eq_true, if_false, ih]

theorem mem_decayPlan {cfg : Config} {st : Sys} {now : ℚ} {c : Change}
    (h : c ∈ decayPlan cfg st now) :
    ∃ a ∈ st.table, isActive a.state = true ∧ c = decayAnchor cfg now a := by
  rw [decayPlan, List.mem_filterMap] at h
  rcases h with ⟨a, ha, hc⟩
  by_cases hact : isActive a.state
  · rw [if_pos hact] at hc
    exact ⟨a, ha, hact, (Option.some.inj hc).symm⟩
  · rw [if_neg hact] at hc
    exact Option.noConfusion hc

theorem mem_matchesFor {cfg : Config} {t : List Anchor} {p : Vec3} {a : Anchor} :
    a ∈ matchesFor cfg t p ↔
      a ∈ t ∧ a.visibility = Visibility.shared ∧ isActive a.state = true ∧
        Vec3.distSq a.pose.pos p ≤ cfg.mergeRadius * cfg.mergeRadius := by
  rw [matchesFor, List.mem_filter]
  simp [Bool.and_eq_true, decide_eq_true_eq, and_assoc]

theorem matchesFor_ids_nodup {cfg : Config} {t : List Anchor} {p : Vec3}
    (hn : (t.map Anchor.id).Nodup) : ((matchesFor cfg t p).map Anchor.id).Nodup :=
  List.Nodup.sublist (List.Sublist.map Anchor.id (List.filter_sublist t)) hn

theorem minByIdList_mem {a : Anchor} {l : List Anchor} : minByIdList a l ∈ a :: l := by
  induction l generalizing a with
  | nil => simp [minByIdList]
  | cons b l ih =>
    rw [minByIdList]
    rcases List.mem_cons.mp (ih (a := if b.id < a.id then b else a)) with h | h
    · rw [h]
      split
      · exact List.mem_cons_of_mem _ (List.mem_cons_self _ _)
      · exact List.mem_cons_self _ _
    · exact List.mem_cons_of_mem _ (List.mem_cons_of_mem _ h)

theorem minByIdList_le {a : Anchor} {l : List Anchor} :
    ∀ x ∈ a :: l, (minByIdList a l).id ≤ x.id := by
  induction l generalizing a with
  | nil =>
    intro x hx
    rw [List.mem_singleton] at hx
    rw [hx, minByIdList]
  | cons b l ih =>
    intro x hx
    rw [minByIdList]
    rcases List.mem_cons.mp hx with h | hx'
    · subst h
      by_cases hba : b.id < x.id
      · have := ih (a := if b.id < x.id then b else x) (if b.id < x.id then b else x)
          (List.mem_cons_self _ _)
        rw [if_pos hba] at this ⊢
        exact Nat.le_trans this (Nat.le_of_lt hba)
      · have := ih (a := if b.id < x.id then b else x) (if b.id < x.id then b else x)
          (List.mem_cons_self _ _)
        rw [if_neg hba] at this ⊢
        exact this
    · rcases List.mem_cons.mp hx' with h | h
      · subst h
        by_cases hba : x.id < a.id
        · have := ih (a := if x.id < a.id then x else a) (if x.id < a.id then x else a)
            (List.mem_cons_self _ _)
          rw [if_pos hba] at this ⊢
          exact this
        · have := ih (a := if x.id < a.id then x else a) (if x.id < a.id then x else a)
            (List.mem_cons_self _ _)
          rw [if_neg hba] at this ⊢
          exact Nat.le_trans this (Nat.le_of_not_lt hba)
      · exact ih (a := if b.id < a.id then b else a) x (List.mem_cons_of_mem _ h)

theorem mergeInto_id {i : Nat} {o : Anchor} : (mergeInto i o).id = o.id := rfl

theorem merge_changes_ids {i : Nat} {l : List Anchor} :
    ((l.map (fun o => (⟨SyncOp.merge, mergeInto i o⟩ : Change))).map
      (fun c => c.anchor.id)) = l.map Anchor.id := by
  induction l with
  | nil => rfl
  | cons o l ih => simp only [List.map_cons, ih, mergeInto_id]

theorem spatialPlan_ok {cfg : Config} {st : Sys} {pose : Pose} {conf : ℚ}
    {session : Nat} {now : ℚ} (hwf : WF st) :
    ChangesOK st (spatialPlan cfg st pose conf session now).1
      (spatialPlan cfg st pose conf session now).2 := by
  unfold spatialPlan
  cases hms : matchesFor cfg st.table pose.pos with
  | nil =>
    refine ⟨by simp, Nat.le_succ _, ?_⟩
    intro c hc
    rw [List.mem_singleton] at hc
    subst hc
    refine Or.inr ⟨?_, Nat.le_refl _, Nat.lt_succ_self _⟩
    rw [lookup_eq_none]
    intro a ha
    exact Nat.ne_of_lt (hwf.idsLt a ha)
  | cons a ms =>
    cases ms with
    | nil =>
      refine ⟨by simp, Nat.le_refl _, ?_⟩
      intro c hc
      rw [List.mem_singleton] at hc
      subst hc
      have ham : a ∈ matchesFor cfg st.table pose.pos := by
        rw [hms]
        exact List.mem_singleton_self a
      have hat : a ∈ st.table := (mem_matchesFor.mp ham).1
      exact Or.inl ⟨a, lookup_of_mem_id hwf.idsNodup hat updateAnchor_id.symm,
        updateAnchor_version⟩
    | cons b rest =>
      dsimp only
      have hmsnd : ((a :: b :: rest).map Anchor.id).Nodup := by
        rw [← hms]
        exact matchesFor_ids_nodup hwf.idsNodup
      have hcanmem : minByIdList a (b :: rest) ∈ a :: b :: rest := minByIdList_mem
      have hcant : minByIdList a (b :: rest) ∈ st.table := by
        have : minByIdList a (b :: rest) ∈ matchesFor cfg st.table pose.pos := by
          rw [hms]
          exact hcanmem
        exact (mem_matchesFor.mp this).1
      refine ⟨?_, Nat.le_refl _, ?_⟩
      · rw [List.map_cons, merge_changes_ids, List.nodup_cons]
        constructor
        · intro hmem
          rw [List.mem_map] at hmem
          obtain ⟨o, ho, hid⟩ := hmem
          have hpred := List.of_mem_filter ho
          rw [decide_eq_true_eq] at hpred
          have hhead : (updateAnchor cfg
              (((a :: b :: rest).filter
                (fun o => decide (¬ o.id = (minByIdList a (b :: rest)).id))).foldl
                absorbAnchor (minByIdList a (b :: rest)))
              pose conf session now).id = (minByIdList a (b :: rest)).id := by
            rw [updateAnchor_id, foldl_absorb_id]
          rw [hhead] at hid
          exact hpred hid
        · refine List.Nodup.sublist (List.Sublist.map Anchor.id ?_) hmsnd
          exact List.filter_sublist _
      · intro c hc
        rcases List.mem_cons.mp hc with h | h
        · subst h
          refine Or.inl ⟨minByIdList a (b :: rest), ?_, ?_⟩
          · refine lookup_of_mem_id hwf.idsNodup hcant ?_
            rw [updateAnchor_id, foldl_absorb_id]
          · rw [updateAnchor_version, foldl_absorb_version]
        · rw [List.mem_map] at h
          obtain ⟨o, ho, hco⟩ := h
          subst hco
          have hot : o ∈ st.table := by
            have : o ∈ matchesFor cfg st.table pose.pos := by
              rw [hms]
              exact List.mem_of_mem_filter ho
            exact (mem_matchesFor.mp this).1
          exact Or.inl ⟨o, lookup_of_mem_id hwf.idsNodup hot mergeInto_id.symm, rfl⟩

theorem submitPlan_ok {cfg : Config} {st : Sys} {pose : Pose} {conf : ℚ}
    {session : Nat} {candidate : Option Nat} {now : ℚ} (hwf : WF st) :
    ChangesOK st (submitPlan cfg st pose conf session candidate now).1
      (submitPlan cfg st pose conf session candidate now).2 := by
  unfold submitPlan
  cases hc : candidate.bind (lookup st.table) with
  | none => exact spatialPlan_ok hwf
  | some a =>
    dsimp only
    by_cases hact : isActive a.state
    · rw [if_pos hact]
      refine ⟨by simp, Nat.le_refl _, ?_⟩
      intro c hcc
      rw [List.mem_singleton] at hcc
      subst hcc
      have hl : ∃ cid, lookup st.table cid = some a := by
        cases candidate with
        | none => exact Option.noConfusion hc
        | some cid => exact ⟨cid, hc⟩
      obtain ⟨cid, hcid⟩ := hl
      rcases lookup_mem hcid with ⟨hmem, _⟩
      exact Or.inl ⟨a, lookup_of_mem_id hwf.idsNodup hmem updateAnchor_id.symm,
        updateAnchor_version⟩
    · rw [if_neg hact]
      exact spatialPlan_ok hwf

theorem decayPlan_ok {cfg : Config} {st : Sys} {now : ℚ} (hwf : WF st) :
    ChangesOK st (decayPlan cfg st now) st.nextId := by
  refine ⟨?_, Nat.le_refl _, ?_⟩
  · rw [decayPlan, decayChanges_ids]
    exact List.Nodup.sublist (List.Sublist.map Anchor.id (List.filter_sublist _))
      hwf.idsNodup
  · intro c hc
    obtain ⟨a, ha, _, hca⟩ := mem_decayPlan hc
    subst hca
    exact Or.inl ⟨a, lookup_of_mem_id hwf.idsNodup ha decayAnchor_id.symm,
      decayAnchor_version⟩

theorem step_ok_commit {cfg : Config} {op : Op} {st st' : Sys} (hwf : WF st)
    (h : applyOp cfg op st = .ok st') :
    ∃ cs nid, st' = commit cfg st nid cs ∧ ChangesOK st cs nid := by
  cases op with
  | submit raw conf session candidate now =>
    rw [applyOp] at h
    cases hv : validatePose raw with
    | none =>
      rw [hv] at h
      exact Except.noConfusion h
    | some pose =>
      rw [hv] at h
      refine ⟨(submitPlan cfg st pose conf session candidate now).1,
        (submitPlan cfg st pose conf session candidate now).2,
        (Except.ok.inj h).symm, submitPlan_ok hwf⟩
  | delete anchorId session elevated =>
    rw [applyOp] at h
    cases hl : lookup st.table anchorId with
    | none =>
      rw [hl] at h
      exact Except.noConfusion h
    | some a =>
      rw [hl] at h
      dsimp only at h
      by_cases hown : session = a.ownerSession ∨ elevated = true
      · rw [if_pos hown] at h
        by_cases hact : isActive a.state
        · rw [if_pos hact] at h
          refine ⟨[⟨.delete, { a with state := .deleted, version := a.version + 1 }⟩],
            st.nextId, (Except.ok.inj h).symm, by simp, Nat.le_refl _, ?_⟩
          intro c hc
          rw [List.mem_singleton] at hc
          subst hc
          rcases lookup_mem hl with ⟨hmem, hid⟩
          exact Or.inl ⟨a, lookup_of_mem_id hwf.idsNodup hmem rfl, rfl⟩
        · rw [if_neg hact] at h
          exact Except.noConfusion h
      · rw [if_neg hown] at h
        exact Except.noConfusion h
  | decayTick now =>
    rw [applyOp] at h
    exact ⟨decayPlan cfg st now, st.nextId, (Except.ok.inj h).symm, decayPlan_ok hwf⟩

theorem wf_initSys : WF initSys := by
  constructor <;> simp [initSys]

theorem reachable_wf {cfg : Config} {st : Sys} (h : Reachable cfg st) : WF st := by
  induction h with
  | init => exact wf_initSys
  | step hr hok ih =>
    obtain ⟨cs, nid, heq, hch⟩ := step_ok_commit ih hok
    rw [heq]
    exact commit_wf ih hch

theorem applyOp_submit_valid {cfg : Config} {st : Sys} {raw : RawPose} {conf : ℚ}
    {sess : Nat} {cand : Option Nat} {now : ℚ} {pose : Pose}
    (hv : validatePose raw = some pose) :
    applyOp cfg (.submit raw conf sess cand now) st =
      .ok (commit cfg st (submitPlan cfg st pose conf sess cand now).2
        (submitPlan cfg st pose conf sess cand now).1) := by
  simp only [applyOp, hv]

theorem stepOr_eq_of_ok {cfg : Config} {op : Op} {st st' : Sys}
    (h : applyOp cfg op st = .ok st') : stepOr cfg op st = st' := by
  rw [stepOr, h]

theorem validate_rawOf {x y z : ℚ} :
    validatePose (rawOf x y z) = some ⟨⟨x, y, z⟩, ⟨1, 0, 0, 0⟩⟩ := by
  rw [rawOf]
  rw [validatePose]
  norm_num [Quat.normSq]

theorem stepA_ok :
    applyOp cfgUnit (.submit (rawOf 0 0 0) (1/2) 1 none 0) initSys = .ok cexA := by
  have h : applyOp cfgUnit (.submit (rawOf 0 0 0) (1/2) 1 none 0) initSys =
      .ok (commit cfgUnit initSys
        (submitPlan cfgUnit initSys ⟨⟨0, 0, 0⟩, ⟨1, 0, 0, 0⟩⟩ (1/2) 1 none 0).2
        (submitPlan cfgUnit initSys ⟨⟨0, 0, 0⟩, ⟨1, 0, 0, 0⟩⟩ (1/2) 1 none 0).1) :=
    applyOp_submit_valid validate_rawOf
  rw [cexA, stepOr_eq_of_ok h]
  exact h

theorem stepB_ok :
    applyOp cfgUnit (.submit (rawOf (1/2) (9/10) 0) (1/2) 1 none 0) cexA = .ok cexB := by
  have h : applyOp cfgUnit (.submit (rawOf (1/2) (9/10) 0) (1/2) 1 none 0) cexA =
      .ok (commit cfgUnit cexA
        (submitPlan cfgUnit cexA ⟨⟨1/2, 9/10, 0⟩, ⟨1, 0, 0, 0⟩⟩ (1/2) 1 none 0).2
        (submitPlan cfgUnit cexA ⟨⟨1/2, 9/10, 0⟩, ⟨1, 0, 0, 0⟩⟩ (1/2) 1 none 0).1) :=
    applyOp_submit_valid validate_rawOf
  rw [cexB, stepOr_eq_of_ok h]
  exact h

theorem stepC_ok :
    applyOp cfgUnit (.submit (rawOf 1 0 0) (1/2) 1 none 0) cexB = .ok cexC := by
  have h : applyOp cfgUnit (.submit (rawOf 1 0 0) (1/2) 1 none 0) cexB =
      .ok (commit cfgUnit cexB
        (submitPlan cfgUnit cexB ⟨⟨1, 0, 0⟩, ⟨1, 0, 0, 0⟩⟩ (1/2) 1 none 0).2
        (submitPlan cfgUnit cexB ⟨⟨1, 0, 0⟩, ⟨1, 0, 0, 0⟩⟩ (1/2) 1 none 0).1) :=
    applyOp_submit_valid validate_rawOf
  rw [cexC, stepOr_eq_of_ok h]
  exact h

theorem stepMB_ok :
    applyOp cfgUnit (.submit (rawOf (3/2) 0 0) (1/2) 2 none 0) cexA = .ok mrgB := by
  have h : applyOp cfgUnit (.submit (rawOf (3/2) 0 0) (1/2) 2 none 0) cexA =
      .ok (commit cfgUnit cexA
        (submitPlan cfgUnit cexA ⟨⟨3/2, 0, 0⟩, ⟨1, 0, 0, 0⟩⟩ (1/2) 2 none 0).2
        (submitPlan cfgUnit cexA ⟨⟨3/2, 0, 0⟩, ⟨1, 0, 0, 0⟩⟩ (1/2) 2 none 0).1) :=
    applyOp_submit_valid validate_rawOf
  rw [mrgB, stepOr_eq_of_ok h]
  exact h

theorem stepMC_ok : applyOp cfgUnit mrgOp mrgB = .ok mrgC := by
  have h : applyOp cfgUnit mrgOp mrgB =
      .ok (commit cfgUnit mrgB
        (submitPlan cfgUnit mrgB ⟨⟨3/4, 0, 0⟩, ⟨1, 0, 0, 0⟩⟩ (1/2) 3 none 0).2
        (submitPlan cfgUnit mrgB ⟨⟨3/4, 0, 0⟩, ⟨1, 0, 0, 0⟩⟩ (1/2) 3 none 0).1) :=
    applyOp_submit_valid (validate_rawOf (x := 3/4) (y := 0) (z := 0))
  rw [mrgC, stepOr_eq_of_ok h]
  exact h

theorem reachable_cexB : Reachable cfgUnit cexB :=
  Reachable.step (Reachable.step Reachable.init stepA_ok) stepB_ok

theorem reachable_cexC : Reachable cfgUnit cexC :=
  Reachable.step reachable_cexB stepC_ok

theorem reachable_mrgB : Reachable cfgUnit mrgB :=
  Reachable.step (Reachable.step Reachable.init stepA_ok) stepMB_ok

/-- C1: from any reachable state, an accepted mutation leaves every surviving
anchor either untouched or with its version incremented by exactly one (so
per-anchor versions strictly increase across the mutations that touch the
anchor and never decrease), and the persistence log grows append-only with
globally strictly increasing sequence numbers. -/
theorem c1_accepted_mutations_monotone {cfg : Config} {op : Op} {st st' : Sys}
    (hr : Reachable cfg st) (h : applyOp cfg op st = .ok st') :
    (∀ i a a', lookup st.table i = some a → lookup st'.table i = some a' →
      a' = a ∨ a'.version = a.version + 1) ∧
    (∃ newRecs, st'.log = st.log ++ newRecs) ∧
    st'.log.Pairwise (fun r s => r.sequence < s.sequence) := by
  have hwf := reachable_wf hr
  obtain ⟨cs, nid, heq, hch⟩ := step_ok_commit hwf h
  subst heq
  have hwf' := @commit_wf cfg st cs nid hwf hch
  refine ⟨?_, ⟨recordsOf st.nextSeq cs, rfl⟩, hwf'.logMono⟩
  intro i a a' ha ha'
  simp only [commit] at ha'
  by_cases hmem : ∃ c ∈ cs, c.anchor.id = i
  · obtain ⟨c, hc, hcid⟩ := hmem
    have hl := lookup_applyChanges_mem (t := st.table) hch.1 hc
    rw [hcid] at hl
    rw [hl] at ha'
    have ha'c : a' = c.anchor := (Option.some.inj ha').symm
    rcases hch.2.2 c hc with ⟨a0, ha0, hver⟩ | ⟨hnone, _, _⟩
    · rw [hcid, ha] at ha0
      right
      rw [ha'c, hver, Option.some.inj ha0]
    · rw [hcid, ha] at hnone
      exact Option.noConfusion hnone
  · push_neg at hmem
    rw [lookup_applyChanges_notin hmem, ha] at ha'
    exact Or.inl (Option.some.inj ha').symm

theorem c1_witness :
    (∀ i a a', lookup cexB.table i = some a → lookup cexC.table i = some a' →
      a' = a ∨ a'.version = a.version + 1) ∧
    (∃ newRecs, cexC.log = cexB.log ++ newRecs) ∧
    cexC.log.Pairwise (fun r s => r.sequence < s.sequence) :=
  c1_accepted_mutations_monotone reachable_cexB stepC_ok

/-- C3: recovery is idempotent: when replaying a log over a snapshot succeeds,
snapshotting the recovered table at the returned next sequence and loading
again over the same log returns the identical table and next sequence. -/
theorem c3_recovery_idempotent {snap : Snapshot} {log : List Record}
    {T : List Anchor} {n : Nat} (h : load snap log = .ok (T, n)) :
    load (mkSnapshot T n) log = .ok (T, n) := by
  rw [load] at h
  by_cases hcond : (log.filter (fun r => decide (snap.seq < r.sequence))).map
      (fun r => r.sequence) =
      List.range' (snap.seq + 1)
        (log.filter (fun r => decide (snap.seq < r.sequence))).length
  · rw [if_pos hcond] at h
    obtain ⟨hT, hn⟩ := Prod.mk.injEq .. ▸ Except.ok.inj h
    have hbound : ∀ r ∈ log,
        r.sequence ≤ snap.seq +
          (log.filter (fun r => decide (snap.seq < r.sequence))).length := by
      intro r hrl
      by_cases hgt : snap.seq < r.sequence
      · have hrf : r ∈ log.filter (fun r => decide (snap.seq < r.sequence)) :=
          List.mem_filter.mpr ⟨hrl, decide_eq_true hgt⟩
        have hseq : r.sequence ∈
            (log.filter (fun r => decide (snap.seq < r.sequence))).map
              (fun r => r.sequence) :=
          List.mem_map_of_mem _ hrf
        rw [hcond] at hseq
        have := (List.mem_range'_1.mp hseq).2
        omega
      · omega
    rw [mkSnapshot]
    have hn1 : n - 1 = snap.seq +
        (log.filter (fun r => decide (snap.seq < r.sequence))).length := by
      omega
    have hfe : log.filter (fun r => decide (n - 1 < r.sequence)) = [] := by
      rw [List.filter_eq_nil_iff]
      intro r hrl
      rw [hn1]
      simpa using Nat.not_lt.mpr (hbound r hrl)
    rw [load]
    rw [hfe]
    simp only [List.map_nil, List.length_nil, List.range', if_pos]
    rw [replayLog]
    simp only [List.foldl_nil]
    rw [← hT]
    have : n - 1 + 0 + 1 = n := by omega
    rw [this]
  · rw [if_neg hcond] at h
    exact Except.noConfusion h

theorem c3_witness :
    load (mkSnapshot [anchor0] 2) [⟨1, 0, anchor0⟩] = .ok ([anchor0], 2) :=
  @c3_recovery_idempotent ⟨0, []⟩ [⟨1, 0, anchor0⟩] [anchor0] 2 rfl

/-- C4: the events delivered to a session subscribed to any region, being the
region filter of the retained backlog of a reachable state, are pairwise in
strictly increasing sequence order, and any two delivered events of the same
anchor appear in strictly increasing version order, so version N of an anchor
is never observed before version N-1 when both are delivered. -/
theorem c4_delivery_order {cfg : Config} {st : Sys} {reg : Region}
    (hr : Reachable cfg st) :
    (delivered cfg reg st).Pairwise (fun e f =>
      e.seq < f.seq ∧ (e.anchorId = f.anchorId → e.version < f.version)) := by
  have hwf := reachable_wf hr
  exact List.Pairwise.sublist (List.filter_sublist _) hwf.evPairwise

theorem c4_witness :
    (delivered cfgUnit regionO cexC).Pairwise (fun e f =>
      e.seq < f.seq ∧ (e.anchorId = f.anchorId → e.version < f.version)) :=
  c4_delivery_order reachable_cexC

/-- C5: every mutation is atomic: it either fully applies and logs — the new
log extends the old by appended records, every table change is present among
the appended records, and every appended record matches the new table content
— or it is rejected with an error and no new state exists. -/
theorem c5_atomic_commit {cfg : Config} {op : Op} {st : Sys} (hwf : WF st) :
    (∃ st', applyOp cfg op st = .ok st' ∧
      ∃ newRecs, st'.log = st.log ++ newRecs ∧
        (∀ i a', lookup st'.table i = some a' →
          lookup st.table i = some a' ∨ ∃ r ∈ newRecs, r.anchorId = i ∧ r.snap = a') ∧
        (∀ r ∈ newRecs, lookup st'.table r.anchorId = some r.snap)) ∨
    (∃ e, applyOp cfg op st = .error e) := by
  cases happ : applyOp cfg op st with
  | error e => exact Or.inr ⟨e, rfl⟩
  | ok st' =>
    left
    obtain ⟨cs, nid, heq, hch⟩ := step_ok_commit hwf happ
    subst heq
    refine ⟨_, rfl, recordsOf st.nextSeq cs, rfl, ?_, ?_⟩
    · intro i a' ha'
      simp only [commit] at ha'
      by_cases hmem : ∃ c ∈ cs, c.anchor.id = i
      · obtain ⟨c, hc, hcid⟩ := hmem
        have hl := lookup_applyChanges_mem (t := st.table) hch.1 hc
        rw [hcid] at hl
        rw [hl] at ha'
        right
        obtain ⟨r, hr, hrid, hrsnap⟩ := recordsOf_mem_of_change (n := st.nextSeq) hc
        exact ⟨r, hr, by rw [hrid, hcid], by rw [hrsnap, ← Option.some.inj ha']⟩
      · push_neg at hmem
        rw [lookup_applyChanges_notin hmem] at ha'
        exact Or.inl ha'
    · intro r hr
      obtain ⟨c, hc, hrid, hrsnap, _, _⟩ := mem_recordsOf hr
      have hl := lookup_applyChanges_mem (t := st.table) hch.1 hc
      simp only [commit]
      rw [hrid, hrsnap]
      exact hl

theorem c5_witness :
    (∃ st', applyOp cfgUnit (.decayTick 0) initSys = .ok st' ∧
      ∃ newRecs, st'.log = initSys.log ++ newRecs ∧
        (∀ i a', lookup st'.table i = some a' →
          lookup initSys.table i = some a' ∨
            ∃ r ∈ newRecs, r.anchorId = i ∧ r.snap = a') ∧
        (∀ r ∈ newRecs, lookup st'.table r.anchorId = some r.snap)) ∨
    (∃ e, applyOp cfgUnit (.decayTick 0) initSys = .error e) :=
  c5_atomic_commit wf_initSys

theorem validatePose_none_iff {r : RawPose} :
    validatePose r = none ↔ positionNonFinite r ∨ orientationNotUnitNormalizable r := by
  obtain ⟨px, py, pz, qw, qx, qy, qz⟩ := r
  cases px <;> cases py <;> cases pz <;> cases qw <;> cases qx <;> cases qy <;> cases qz <;>
    simp [validatePose, positionNonFinite, orientationNotUnitNormalizable,
      ite_eq_right_iff, not_lt]

/-- C6: a submitted observation is rejected with InvalidPose exactly when the
supplied position contains a non-finite value or the orientation is not
unit-normalizable, and InvalidPose is the only rejection submit_observation
can produce; a rejection yields no successor state, so no mutation occurs. -/
theorem c6_invalid_pose_iff {cfg : Config} {st : Sys} {raw : RawPose} {conf : ℚ}
    {session : Nat} {cand : Option Nat} {now : ℚ} :
    (applyOp cfg (.submit raw conf session cand now) st = .error .invalidPose ↔
      positionNonFinite raw ∨ orientationNotUnitNormalizable raw) ∧
    (∀ e, applyOp cfg (.submit raw conf session cand now) st = .error e →
      e = .invalidPose) := by
  constructor
  · constructor
    · intro h
      cases hv : validatePose raw with
      | none => exact validatePose_none_iff.mp hv
      | some pose =>
        rw [applyOp_submit_valid hv] at h
        exact Except.noConfusion h
    · intro h
      have hv : validatePose raw = none := validatePose_none_iff.mpr h
      simp only [applyOp, hv]
  · intro e he
    cases hv : validatePose raw with
    | none =>
      simp only [applyOp, hv] at he
      exact (Except.error.inj he).symm
    | some pose =>
      rw [applyOp_submit_valid hv] at he
      exact Except.noConfusion he

theorem c6_witness :
    applyOp cfgUnit (.submit rawBad (1/2) 1 none 0) initSys = .error .invalidPose :=
  c6_invalid_pose_iff.1.mpr (Or.inl (Or.inl rfl))

theorem cexA_eval : cexA.table = [anchor0] ∧ cexA.nextId = 1 := by
  have h : applyOp cfgUnit (.submit (rawOf 0 0 0) (1/2) 1 none 0) initSys =
      .ok (commit cfgUnit initSys
        (submitPlan cfgUnit initSys ⟨⟨0, 0, 0⟩, ⟨1, 0, 0, 0⟩⟩ (1/2) 1 none 0).2
        (submitPlan cfgUnit initSys ⟨⟨0, 0, 0⟩, ⟨1, 0, 0, 0⟩⟩ (1/2) 1 none 0).1) :=
    applyOp_submit_valid validate_rawOf
  rw [cexA, stepOr_eq_of_ok h]
  simp [commit, submitPlan, spatialPlan, matchesFor, initSys, applyChanges, setAnchor,
    newAnchor, anchor0]

theorem cexB_eval : cexB.table = [anchor0, anchor1] ∧ cexB.nextId = 2 := by
  have h : applyOp cfgUnit (.submit (rawOf (1/2) (9/10) 0) (1/2) 1 none 0) cexA =
      .ok (commit cfgUnit cexA
        (submitPlan cfgUnit cexA ⟨⟨1/2, 9/10, 0⟩, ⟨1, 0, 0, 0⟩⟩ (1/2) 1 none 0).2
        (submitPlan cfgUnit cexA ⟨⟨1/2, 9/10, 0⟩, ⟨1, 0, 0, 0⟩⟩ (1/2) 1 none 0).1) :=
    applyOp_submit_valid validate_rawOf
  rw [cexB, stepOr_eq_of_ok h]
  simp only [commit, submitPlan, Option.bind, spatialPlan, matchesFor, cexA_eval.1,
    cexA_eval.2]
  norm_num [List.filter, anchor0, isActive, Vec3.distSq, cfgUnit, applyChanges,
    setAnchor, newAnchor, anchor1]

theorem cexC_eval : cexC.table = [anchor0m, anchor1] := by
  have h : applyOp cfgUnit (.submit (rawOf 1 0 0) (1/2) 1 none 0) cexB =
      .ok (commit cfgUnit cexB
        (submitPlan cfgUnit cexB ⟨⟨1, 0, 0⟩, ⟨1, 0, 0, 0⟩⟩ (1/2) 1 none 0).2
        (submitPlan cfgUnit cexB ⟨⟨1, 0, 0⟩, ⟨1, 0, 0, 0⟩⟩ (1/2) 1 none 0).1) :=
    applyOp_submit_valid validate_rawOf
  rw [cexC, stepOr_eq_of_ok h]
  simp only [commit, submitPlan, Option.bind, spatialPlan, matchesFor, cexB_eval.1,
    cexB_eval.2]
  norm_num [List.filter, anchor0, anchor1, isActive, Vec3.distSq, cfgUnit,
    applyChanges, setAnchor, updateAnchor, wavgPose, asymUp, anchor0m]

/-- C2 counterexample: in the reachable state of the drift scenario, two
distinct shared anchors lie within the merge radius of each other and both
are in an active (pending or confirmed) state, so the claimed cluster
invariant fails on the modelled code: pose averaging moved anchor zero to
within the merge radius of anchor one without merging them. -/
theorem c2_counterexample :
    Reachable cfgUnit cexC ∧
    anchor0m ∈ cexC.table ∧ anchor1 ∈ cexC.table ∧ anchor0m.id ≠ anchor1.id ∧
    anchor0m.visibility = .shared ∧ anchor1.visibility = .shared ∧
    Vec3.distSq anchor0m.pose.pos anchor1.pose.pos ≤
      cfgUnit.mergeRadius * cfgUnit.mergeRadius ∧
    isActive anchor0m.state = true ∧ isActive anchor1.state = true := by
  refine ⟨reachable_cexC, ?_, ?_, ?_, rfl, rfl, ?_, rfl, rfl⟩
  · rw [cexC_eval]
    simp
  · rw [cexC_eval]
    simp
  · norm_num [anchor0m, anchor1]
  · norm_num [anchor0m, anchor1, Vec3.distSq, cfgUnit]

theorem submitPlan_none_eq {cfg : Config} {st : Sys} {pose : Pose} {conf : ℚ}
    {session : Nat} {now : ℚ} :
    submitPlan cfg st pose conf session none now =
      spatialPlan cfg st pose conf session now := rfl

theorem spatialPlan_merge_eq {cfg : Config} {st : Sys} {pose : Pose} {conf : ℚ}
    {session : Nat} {now : ℚ} {a b : Anchor} {rest : List Anchor}
    (hms : matchesFor cfg st.table pose.pos = a :: b :: rest) :
    spatialPlan cfg st pose conf session now =
      (⟨.update, updateAnchor cfg
          (((a :: b :: rest).filter
              (fun o => decide (¬ o.id = (minByIdList a (b :: rest)).id))).foldl
            absorbAnchor (minByIdList a (b :: rest)))
          pose conf session now⟩ ::
        ((a :: b :: rest).filter
            (fun o => decide (¬ o.id = (minByIdList a (b :: rest)).id))).map
          (fun o => ⟨.merge, mergeInto (minByIdList a (b :: rest)).id o⟩),
        st.nextId) := by
  simp only [spatialPlan, hms]

/-- C2 (amended): when submit_observation with no candidate finds multiple
matches within the merge radius, the lowest-id match becomes canonical: after
the mutation it is still active (never merged) with its version incremented
once, and every other match is tombstoned as merged with merged_into set to
the canonical id and its version incremented once.  The global cluster
invariant of the original claim fails on the modelled code (see the
counterexample): pose averaging can move a canonical anchor to within the
merge radius of another active anchor without merging them. -/
theorem c2_merge_postcondition {cfg : Config} {st st' : Sys} {raw : RawPose}
    {pose : Pose} {conf : ℚ} {session : Nat} {now : ℚ} {a b : Anchor}
    {rest : List Anchor}
    (hr : Reachable cfg st)
    (hv : validatePose raw = some pose)
    (hms : matchesFor cfg st.table pose.pos = a :: b :: rest)
    (hok : applyOp cfg (.submit raw conf session none now) st = .ok st') :
    (∀ o ∈ matchesFor cfg st.table pose.pos, (minByIdList a (b :: rest)).id ≤ o.id) ∧
    (∃ can, lookup st'.table (minByIdList a (b :: rest)).id = some can ∧
      isActive can.state = true ∧
      can.version = (minByIdList a (b :: rest)).version + 1) ∧
    (∀ o ∈ matchesFor cfg st.table pose.pos, o.id ≠ (minByIdList a (b :: rest)).id →
      lookup st'.table o.id =
        some { o with state := .merged,
                      mergedInto := some (minByIdList a (b :: rest)).id,
                      version := o.version + 1 }) := by
  have hwf := reachable_wf hr
  have happ : applyOp cfg (.submit raw conf session none now) st =
      .ok (commit cfg st (submitPlan cfg st pose conf session none now).2
        (submitPlan cfg st pose conf session none now).1) :=
    applyOp_submit_valid hv
  have heq := Except.ok.inj (happ.symm.trans hok)
  subst heq
  have hchk := @submitPlan_ok cfg st pose conf session none now hwf
  rw [submitPlan_none_eq, spatialPlan_merge_eq hms] at hchk
  refine ⟨?_, ?_, ?_⟩
  · intro o ho
    rw [hms] at ho
    exact minByIdList_le o ho
  · refine ⟨updateAnchor cfg
      (((a :: b :: rest).filter
          (fun o => decide (¬ o.id = (minByIdList a (b :: rest)).id))).foldl
        absorbAnchor (minByIdList a (b :: rest))) pose conf session now, ?_, ?_, ?_⟩
    · have hl := lookup_applyChanges_mem (t := st.table) hchk.1
        (List.mem_cons_self _ _)
      simp only [commit, submitPlan_none_eq, spatialPlan_merge_eq hms]
      dsimp only at hl ⊢
      rw [updateAnchor_id, foldl_absorb_id] at hl
      exact hl
    · have hca : minByIdList a (b :: rest) ∈ matchesFor cfg st.table pose.pos := by
        rw [hms]
        exact minByIdList_mem
      have hact := (mem_matchesFor.mp hca).2.2.1
      refine updateAnchor_state_active ?_
      rw [foldl_absorb_state]
      exact hact
    · rw [updateAnchor_version, foldl_absorb_version]
  · intro o ho hne
    rw [hms] at ho
    have hof : o ∈ (a :: b :: rest).filter
        (fun o => decide (¬ o.id = (minByIdList a (b :: rest)).id)) :=
      List.mem_filter.mpr ⟨ho, decide_eq_true hne⟩
    have hcm : (⟨SyncOp.merge, mergeInto (minByIdList a (b :: rest)).id o⟩ : Change) ∈
        (⟨SyncOp.update, updateAnchor cfg
            (((a :: b :: rest).filter
                (fun o => decide (¬ o.id = (minByIdList a (b :: rest)).id))).foldl
              absorbAnchor (minByIdList a (b :: rest))) pose conf session now⟩ ::
          ((a :: b :: rest).filter
              (fun o => decide (¬ o.id = (minByIdList a (b :: rest)).id))).map
            (fun o => ⟨SyncOp.merge, mergeInto (minByIdList a (b :: rest)).id o⟩)) :=
      List.mem_cons_of_mem _ (List.mem_map_of_mem _ hof)
    have hl := lookup_applyChanges_mem (t := st.table) hchk.1 hcm
    simp only [commit, submitPlan_none_eq, spatialPlan_merge_eq hms]
    dsimp only at hl ⊢
    rw [mergeInto_id] at hl
    exact hl
theorem mrgB_eval : mrgB.table = [anchor0, anchorB] ∧ mrgB.nextId = 2 := by
  have h : applyOp cfgUnit (.submit (rawOf (3/2) 0 0) (1/2) 2 none 0) cexA =
      .ok (commit cfgUnit cexA
        (submitPlan cfgUnit cexA ⟨⟨3/2, 0, 0⟩, ⟨1, 0, 0, 0⟩⟩ (1/2) 2 none 0).2
        (submitPlan cfgUnit cexA ⟨⟨3/2, 0, 0⟩, ⟨1, 0, 0, 0⟩⟩ (1/2) 2 none 0).1) :=
    applyOp_submit_valid validate_rawOf
  rw [mrgB, stepOr_eq_of_ok h]
  simp only [commit, submitPlan, Option.bind, spatialPlan, matchesFor, cexA_eval.1,
    cexA_eval.2]
  norm_num [List.filter, anchor0, isActive, Vec3.distSq, cfgUnit, applyChanges,
    setAnchor, newAnchor, anchorB]

theorem mrgB_matches :
    matchesFor cfgUnit mrgB.table (Pose.pos ⟨⟨3/4, 0, 0⟩, ⟨1, 0, 0, 0⟩⟩) =
      anchor0 :: anchorB :: [] := by
  rw [mrgB_eval.1]
  norm_num [matchesFor, List.filter, anchor0, anchorB, isActive, Vec3.distSq, cfgUnit]

theorem c2_witness :
    (∀ o ∈ matchesFor cfgUnit mrgB.table (Pose.pos ⟨⟨3/4, 0, 0⟩, ⟨1, 0, 0, 0⟩⟩),
      (minByIdList anchor0 [anchorB]).id ≤ o.id) ∧
    (∃ can, lookup mrgC.table (minByIdList anchor0 [anchorB]).id = some can ∧
      isActive can.state = true ∧
      can.version = (minByIdList anchor0 [anchorB]).version + 1) ∧
    (∀ o ∈ matchesFor cfgUnit mrgB.table (Pose.pos ⟨⟨3/4, 0, 0⟩, ⟨1, 0, 0, 0⟩⟩),
      o.id ≠ (minByIdList anchor0 [anchorB]).id →
      lookup mrgC.table o.id =
        some { o with state := .merged,
                      mergedInto := some (minByIdList anchor0 [anchorB]).id,
                      version := o.version + 1 }) :=
  c2_merge_postcondition reachable_mrgB
    (validate_rawOf (x := 3/4) (y := 0) (z := 0)) mrgB_matches stepMC_ok

/-- C7: the health and metrics endpoints of the cloud anchor service are
read-only: evaluating the `/metrics` handler or the `/health` handler on any
module state returns that state unchanged — they only read the availability
of the three service globals and their `get_metrics()`-style summaries. -/
theorem c7_endpoints_pure (st : SvcState) (env now : String) :
    (prometheusMetrics st env now).1 = st ∧ (healthCheck st).1 = st := by
  constructor
  · rfl
  · cases hrc : runHealthChecks st with
    | none => simp [healthCheck, hrc]
    | some t =>
      obtain ⟨a, p, s⟩ := t
      by_cases h : (a && p && s) = true
      · simp [healthCheck, hrc, h]
      · simp [healthCheck, hrc, h]

/-- C8: the tracing decorators are identity transformations: applied directly
to a function they return that function, and applied with parameters they
return a decorator that returns the wrapped function unchanged — so the
decorated `/api/path` route handler behaves exactly as if undecorated. -/
theorem c8_trace_decorators_identity {F : Type} (args : List (PyArg F))
    (kwargs : List (String × PyArg F)) (f : F) :
    traceApiRoute [PyArg.func f] kwargs = Sum.inl f ∧
    traceBackendCall [PyArg.func f] kwargs = Sum.inl f ∧
    (∀ d, traceApiRoute args kwargs = Sum.inr d → d f = f) ∧
    (∀ d, traceBackendCall args kwargs = Sum.inr d → d f = f) := by
  refine ⟨rfl, rfl, ?_, ?_⟩
  · intro d hd
    match args, hd with
    | [], hd => rw [← Sum.inr.inj hd]
    | [PyArg.func g], hd => exact Sum.noConfusion hd
    | [PyArg.value v], hd => rw [← Sum.inr.inj hd]
    | PyArg.func g :: y :: l, hd => rw [← Sum.inr.inj hd]
    | PyArg.value v :: y :: l, hd => rw [← Sum.inr.inj hd]
  · intro d hd
    match args, hd with
    | [], hd => rw [← Sum.inr.inj hd]
    | [PyArg.func g], hd => exact Sum.noConfusion hd
    | [PyArg.value v], hd => rw [← Sum.inr.inj hd]
    | PyArg.func g :: y :: l, hd => rw [← Sum.inr.inj hd]
    | PyArg.value v :: y :: l, hd => rw [← Sum.inr.inj hd]

theorem c8_witness :
    traceApiRoute [PyArg.func 7] ([] : List (String × PyArg Nat)) = Sum.inl 7 ∧
    (fun (g : Nat) => g) 7 = 7 :=
  ⟨(c8_trace_decorators_identity [PyArg.value "api_routing", PyArg.value "dynamic"]
      [] 7).1,
   (c8_trace_decorators_identity [PyArg.value "api_routing", PyArg.value "dynamic"]
      [] 7).2.2.1 (fun g => g) rfl⟩

/-- C9: the target-service classification of the gateway route handler is a
total deterministic function of the path, equal to the prioritized
first-matching-prefix table of the claim, and always yields one of the six
service labels, with unmatched paths classified as unknown. -/
theorem c9_target_service_total (path : String) :
    targetService path = claimClassify path ∧ targetService path ∈ serviceLabels := by
  constructor
  · unfold targetService claimClassify routingTable
    simp only [List.find?, List.any]
    by_cases h1 : (path.startsWith "localization" || path.startsWith "slam"
        || path.startsWith "vio" || path.startsWith "pose") = true
    · simp only [Bool.or_assoc] at h1 ⊢
      simp [h1]
    · simp only [Bool.or_assoc] at h1 ⊢
      simp only [h1, Bool.or_false, if_false]
      by_cases h2 : (path.startsWith "maps" || path.startsWith "reconstruction") = true
      · simp [h2]
      · simp only [h2, Bool.or_false, if_false]
        by_cases h3 : (path.startsWith "multiplayer" || path.startsWith "auth") = true
        · simp [h3]
        · simp only [h3, Bool.or_false, if_false]
          by_cases h4 : path.startsWith "vps" = true
          · simp [h4]
          · simp only [h4, Bool.or_false, if_false]
            by_cases h5 : path.startsWith "anchors" = true
            · simp [h5]
            · simp [h5]
  · unfold targetService serviceLabels
    split
    · simp
    · split
      · simp
      · split
        · simp
        · split
          · simp
          · split
            · simp
            · simp

/-- C10: the `/healthz` endpoint answers 200 healthy exactly when both the
anchor manager and the persistence engine globals are initialized and no
internal exception occurred; it never consults the sync manager, and in
every other case — including an internal exception — it answers 503
unhealthy rather than propagating the exception. -/
theorem c10_healthz_iff (am : Option AnchorManagerS) (pe : Option PersistenceEngineS)
    (sm sm' : Option SyncManagerS) (raised : Bool) :
    healthCheckMinimal am pe sm raised = healthCheckMinimal am pe sm' raised ∧
    (healthCheckMinimal am pe sm raised = ⟨200, "healthy"⟩ ↔
      raised = false ∧ am.isSome = true ∧ pe.isSome = true) ∧
    (healthCheckMinimal am pe sm raised = ⟨503, "unhealthy"⟩ ↔
      ¬(raised = false ∧ am.isSome = true ∧ pe.isSome = true)) := by
  cases raised <;> cases am <;> cases pe <;>
    simp [healthCheckMinimal]

end MADDA
